import Mathlib

/-!
Shallow embedding of the ipv4 configuration module (src/ipv4.rs).

Machine integers (u8, u32) are modelled as `Nat` with explicit `% 2^w`
truncation where overflow matters.  Fallible Rust operations returning
`Result<_, E>` are modelled as `Except String _`; the error values are the
literal `&'static str` / `anyhow` messages of the source, so the spec's
error-kind names correspond to strings as follows:
  InvalidFormat        = "Invalid subnet mask"
  OutOfRange           = "Mask should be a number between 1 and 32"
  InvalidAddressFormat = "Invalid ip address format, expected XXX.XXX.XXX.XXX"
  InvalidSubnetFormat  = "Expected <gateway-ip-address>/<mask>"
  NotAValidMask        = "Not a valid mask"
-/

/-- `Mask(pub u8)`: a subnet prefix length wrapper.  The wrapped `u8` is
modelled as a `Nat`. -/
structure Mask where
  val : Nat
deriving DecidableEq, Repr

/-- `std::net::Ipv4Addr`: four octets, most significant first.  Each octet is
a `u8`, modelled as a `Nat`; `Ipv4Addr.valid` states the `u8` range. -/
structure Ipv4Addr where
  a : Nat
  b : Nat
  c : Nat
  d : Nat
deriving DecidableEq, Repr

/-- The type-level invariant Rust's `u8` octets give for free. -/
def Ipv4Addr.valid (ip : Ipv4Addr) : Prop :=
  ip.a < 256 ∧ ip.b < 256 ∧ ip.c < 256 ∧ ip.d < 256

instance (ip : Ipv4Addr) : Decidable ip.valid := by
  unfold Ipv4Addr.valid; infer_instance

/-- `Subnet { gateway: Ipv4Addr, mask: Mask }`. -/
structure Subnet where
  gateway : Ipv4Addr
  mask : Mask
deriving DecidableEq, Repr

/-- One step of Rust's `u8::from_str` digit loop (`from_str_radix`, radix 10):
accumulate decimal digits with a `u8` overflow check at every step.  A
non-digit character or an overflow past 255 is a parse error (`none`). -/
def parseU8Loop : List Char → Nat → Option Nat
  | [], acc => some acc
  | ch :: rest, acc =>
    if ch.isDigit then
      if acc * 10 + (ch.toNat - 48) ≤ 255 then
        parseU8Loop rest (acc * 10 + (ch.toNat - 48))
      else none
    else none

/-- Rust's `str::parse::<u8>` (`u8::from_str_radix` at radix 10): an optional
leading plus sign followed by one or more ASCII digits whose value fits in a
`u8`.  A minus sign is rejected for unsigned types, whitespace is not
trimmed, and a lone sign character is an error. -/
def parseU8 (cs : List Char) : Option Nat :=
  match cs with
  | [] => none
  | ch :: rest =>
    if ch = '+' then
      match rest with
      | [] => none
      | _ => parseU8Loop rest 0
    else parseU8Loop (ch :: rest) 0

/-- `impl FromStr for Mask` on the character list of the input: parse as a
`u8`, mapping a parse failure to "Invalid subnet mask", then require
`1 <= mask && mask <= 32`, otherwise "Mask should be a number between 1
and 32". -/
def Mask.parseChars (cs : List Char) : Except String Mask :=
  match parseU8 cs with
  | none => Except.error ("Invalid subnet mask")
  | some v =>
    if 1 ≤ v ∧ v ≤ 32 then Except.ok ⟨v⟩
    else Except.error ("Mask should be a number between 1 and 32")

/-- `impl FromStr for Mask` (`"<n>".parse::<Mask>()`). -/
def Mask.from_str (s : String) : Except String Mask :=
  Mask.parseChars s.data

/-- `impl ToString for Mask`: decimal rendering of the wrapped integer. -/
def Mask.to_string (m : Mask) : String :=
  Nat.repr m.val

/-- Count of consecutive one-bits from bit `k-1` downward (`u32::leading_ones`
restricted to the top `k` bits). -/
def leadingOnesFrom (x : Nat) : Nat → Nat
  | 0 => 0
  | k + 1 => if x.testBit k then leadingOnesFrom x k + 1 else 0

/-- `u32::leading_ones`: consecutive one-bits from bit 31 downward. -/
def leadingOnes32 (x : Nat) : Nat :=
  leadingOnesFrom x 32

/-- Count of consecutive zero-bits starting at bit `i`, inspecting at most `k`
bits (`u32::trailing_zeros` helper). -/
def trailingZerosUpTo (x : Nat) : Nat → Nat → Nat
  | _, 0 => 0
  | i, k + 1 => if x.testBit i then 0 else trailingZerosUpTo x (i + 1) k + 1

/-- `u32::trailing_zeros`: consecutive zero-bits from bit 0 upward; 32 for the
value 0. -/
def trailingZeros32 (x : Nat) : Nat :=
  trailingZerosUpTo x 0 32

/-- The big-endian `u32` built from the octets in `impl TryFrom<Ipv4Addr> for
Mask`: `((o0 & 0xff) << 24) | ((o1 & 0xff) << 16) | ((o2 & 0xff) << 8) |
(o3 & 0xff)`. -/
def Ipv4Addr.toU32 (ip : Ipv4Addr) : Nat :=
  ((ip.a &&& 255) <<< 24) ||| ((ip.b &&& 255) <<< 16) ||| ((ip.c &&& 255) <<< 8) ||| (ip.d &&& 255)

/-- `impl TryFrom<Ipv4Addr> for Mask`: accept exactly when
`addr.leading_ones() + addr.trailing_zeros() == 32`, yielding
`Mask(addr.leading_ones())`; otherwise `bail!("Not a valid mask")`. -/
def Mask.try_from (ip : Ipv4Addr) : Except String Mask :=
  if leadingOnes32 ip.toU32 + trailingZeros32 ip.toU32 = 32 then
    Except.ok ⟨leadingOnes32 ip.toU32⟩
  else Except.error ("Not a valid mask")

/-- Rust `u32` left shift `x << n`.  A shift amount of 32 or more is an
arithmetic overflow: it panics when debug assertions are on (release builds
mask the shift amount).  The overflow is modelled as `none`. -/
def shlU32Checked (x n : Nat) : Option Nat :=
  if n < 32 then some ((x <<< n) % 2 ^ 32) else none

/-- `impl From<Mask> for Ipv4Addr`: `let addr: u32 = 1 << mask.0;` then split
`addr` into four octets, most significant first, via shifts and `& 0xff`. -/
def Ipv4Addr.from_mask (m : Mask) : Option Ipv4Addr :=
  match shlU32Checked 1 m.val with
  | none => none
  | some addr =>
    some ⟨(addr >>> 24) &&& 255, (addr >>> 16) &&& 255, (addr >>> 8) &&& 255, addr &&& 255⟩

/-- Rust's `str::split(sep)` on character lists: the list of (possibly empty)
chunks between occurrences of `sep`.  Splitting the empty string yields one
empty chunk, as in Rust. -/
def splitOnChar (sep : Char) : List Char → List (List Char)
  | [] => [[]]
  | ch :: rest =>
    if ch = sep then [] :: splitOnChar sep rest
    else
      match splitOnChar sep rest with
      | [] => [[ch]]
      | p :: ps => (ch :: p) :: ps

/-- Decimal value of a digit string (most significant digit first). -/
def decimalValue (cs : List Char) : Nat :=
  cs.foldl (fun acc ch => acc * 10 + (ch.toNat - 48)) 0

/-- One octet of Rust `std`'s `Ipv4Addr` parser: one to three ASCII digits, no
leading zero on a multi-digit octet, value at most 255. -/
def parseOctet (cs : List Char) : Option Nat :=
  match cs with
  | [] => none
  | [ch] => if ch.isDigit then some (ch.toNat - 48) else none
  | ch :: ch2 :: rest =>
    if ch.isDigit ∧ ch ≠ '0' ∧ (ch2 :: rest).all Char.isDigit ∧
        (ch :: ch2 :: rest).length ≤ 3 ∧ decimalValue (ch :: ch2 :: rest) ≤ 255 then
      some (decimalValue (ch :: ch2 :: rest))
    else none

/-- Rust `std`'s `Ipv4Addr::from_str` on character lists: exactly four octets
separated by single dots, nothing else. -/
def parseIpv4Chars (cs : List Char) : Option Ipv4Addr :=
  match splitOnChar '.' cs with
  | [o0, o1, o2, o3] =>
    match parseOctet o0, parseOctet o1, parseOctet o2, parseOctet o3 with
    | some x0, some x1, some x2, some x3 => some ⟨x0, x1, x2, x3⟩
    | _, _, _, _ => none
  | _ => none

/-- Rust `std`'s `Ipv4Addr::from_str`. -/
def Ipv4Addr.parse (s : String) : Option Ipv4Addr :=
  parseIpv4Chars s.data

/-- Rust `std`'s `Display for Ipv4Addr`: dotted-quad decimal rendering. -/
def Ipv4Addr.to_string (ip : Ipv4Addr) : String :=
  Nat.repr ip.a ++ "." ++ Nat.repr ip.b ++ "." ++ Nat.repr ip.c ++ "." ++ Nat.repr ip.d

/-- `impl ToString for Subnet`: gateway text, a slash, then the mask's decimal
text. -/
def Subnet.to_string (sn : Subnet) : String :=
  sn.gateway.to_string ++ "/" ++ Nat.repr sn.mask.val

/-- `impl FromStr for Subnet`: split on the slash character; exactly two parts
are required, the first must parse as an `Ipv4Addr`, and the mask parse's
result (value or error) is propagated through `map`. -/
def Subnet.from_str (s : String) : Except String Subnet :=
  match splitOnChar '/' s.data with
  | [gatewayStr, maskStr] =>
    match parseIpv4Chars gatewayStr with
    | some gateway => (Mask.parseChars maskStr).map (fun m => Subnet.mk gateway m)
    | none => Except.error ("Invalid ip address format, expected XXX.XXX.XXX.XXX")
  | _ => Except.error ("Expected <gateway-ip-address>/<mask>")

/-- `ClientSettings`: fixed-IP client configuration. -/
structure ClientSettings where
  ip : Ipv4Addr
  subnet : Subnet
  dns : Option Ipv4Addr
  secondary_dns : Option Ipv4Addr
deriving DecidableEq, Repr

/-- `impl Default for ClientSettings`. -/
def ClientSettings.default : ClientSettings :=
  { ip := ⟨192, 168, 71, 200⟩
    subnet := { gateway := ⟨192, 168, 71, 1⟩, mask := ⟨24⟩ }
    dns := some ⟨8, 8, 8, 8⟩
    secondary_dns := some ⟨8, 8, 4, 4⟩ }

/-- `enum ClientConfiguration { DHCP, Fixed(ClientSettings) }`. -/
inductive ClientConfiguration where
  | DHCP : ClientConfiguration
  | Fixed : ClientSettings → ClientConfiguration
deriving DecidableEq, Repr

/-- `ClientConfiguration::as_fixed_settings_ref`. -/
def ClientConfiguration.as_fixed_settings_ref : ClientConfiguration → Option ClientSettings
  | ClientConfiguration.Fixed s => some s
  | ClientConfiguration.DHCP => none

/-- `ClientConfiguration::as_fixed_settings_mut`, modelled by explicit state
passing: the result is the returned mutable view's value paired with the
configuration after the call.  On `Fixed` it returns the settings in place;
on `DHCP` the source first assigns `*self = Fixed(Default::default())` and
then recurses, which lands in the `Fixed` arm (the single recursion is
inlined here). -/
def ClientConfiguration.as_fixed_settings_mut :
    ClientConfiguration → ClientSettings × ClientConfiguration
  | ClientConfiguration.Fixed s => (s, ClientConfiguration.Fixed s)
  | ClientConfiguration.DHCP =>
    (ClientSettings.default, ClientConfiguration.Fixed ClientSettings.default)

/-- `impl Default for ClientConfiguration`. -/
def ClientConfiguration.default : ClientConfiguration :=
  ClientConfiguration.DHCP

/-- `RouterConfiguration`. -/
structure RouterConfiguration where
  subnet : Subnet
  dhcp_enabled : Bool
  dns : Option Ipv4Addr
  secondary_dns : Option Ipv4Addr
deriving DecidableEq, Repr

/-- `impl Default for RouterConfiguration`. -/
def RouterConfiguration.default : RouterConfiguration :=
  { subnet := { gateway := ⟨192, 168, 71, 1⟩, mask := ⟨24⟩ }
    dhcp_enabled := true
    dns := some ⟨8, 8, 8, 8⟩
    secondary_dns := some ⟨8, 8, 4, 4⟩ }

/-- Spec-side description of a prefix-mask bit pattern: the 32-bit value with
exactly `n` leading one-bits followed by `32 - n` zero-bits. -/
def maskBits (n : Nat) : Nat :=
  2 ^ 32 - 2 ^ (32 - n)

/-- Spec-side description of Rust's `u8` text domain: one or more ASCII
digits whose decimal value fits in a `u8`. -/
def u8Digits (cs : List Char) : Prop :=
  cs ≠ [] ∧ (∀ ch ∈ cs, ch.isDigit) ∧ decimalValue cs ≤ 255

instance (cs : List Char) : Decidable (u8Digits cs) := by
  unfold u8Digits; infer_instance

/-- Strip one optional leading plus sign (the sign handling of
`u8::from_str_radix`). -/
def stripPlus (cs : List Char) : List Char :=
  match cs with
  | ch :: rest => if ch = '+' then rest else cs
  | [] => cs

/-- Spec-side big-endian byte split of a 32-bit value into a dotted quad,
written with division and remainder instead of the source's shifts and
bitwise masks. -/
def dottedQuadOf (v : Nat) : Ipv4Addr :=
  ⟨v / 2 ^ 24 % 256, v / 2 ^ 16 % 256, v / 2 ^ 8 % 256, v % 256⟩

deriving instance DecidableEq for Except

/-! ### Characterization of the u8 digit loop -/

/-- The decimal accumulator never decreases while digits are consumed. -/
theorem decimalFold_mono (cs : List Char) (acc : Nat) :
    acc ≤ cs.foldl (fun a ch => a * 10 + (ch.toNat - 48)) acc := by
  induction cs generalizing acc with
  | nil => exact Nat.le_refl acc
  | cons ch rest ih =>
    refine Nat.le_trans ?_ (ih (acc * 10 + (ch.toNat - 48)))
    have h10 : acc ≤ acc * 10 := by omega
    exact Nat.le_trans h10 (Nat.le_add_right _ _)

/-- The `u8` digit loop succeeds exactly on all-digit strings whose decimal
value (folded onto the starting accumulator) fits in a `u8`. -/
theorem parseU8Loop_eq_some (cs : List Char) (acc v : Nat) (hacc : acc ≤ 255) :
    parseU8Loop cs acc = some v ↔
      ((∀ ch ∈ cs, ch.isDigit) ∧
        cs.foldl (fun a ch => a * 10 + (ch.toNat - 48)) acc = v ∧ v ≤ 255) := by
  induction cs generalizing acc with
  | nil =>
    simp only [parseU8Loop, List.not_mem_nil, false_implies, implies_true, List.foldl_nil,
      true_and, Option.some.injEq]
    constructor
    · rintro rfl; exact ⟨rfl, hacc⟩
    · rintro ⟨rfl, _⟩; rfl
  | cons ch rest ih =>
    by_cases hd : ch.isDigit
    · by_cases hb : acc * 10 + (ch.toNat - 48) ≤ 255
      · rw [show parseU8Loop (ch :: rest) acc
            = parseU8Loop rest (acc * 10 + (ch.toNat - 48)) by
          simp [parseU8Loop, hd, hb]]
        rw [ih _ hb]
        simp [hd]
      · rw [show parseU8Loop (ch :: rest) acc = none by simp [parseU8Loop, hd, hb]]
        simp only [List.foldl_cons]
        constructor
        · intro h; exact absurd h (by simp)
        · rintro ⟨_, rfl, hv⟩
          exact absurd (Nat.le_trans (decimalFold_mono rest _) hv) hb
    · rw [show parseU8Loop (ch :: rest) acc = none by simp [parseU8Loop, hd]]
      constructor
      · intro h; exact absurd h (by simp)
      · rintro ⟨hall, _, _⟩
        exact absurd (hall ch (List.mem_cons_self ch rest)) (by simp [hd])

/-- `str::parse::<u8>` succeeds exactly when, after stripping one optional
leading plus sign, the text is a nonempty all-digit string whose decimal
value fits in a `u8`; the parsed value is that decimal value. -/
theorem parseU8_eq_some (cs : List Char) (v : Nat) :
    parseU8 cs = some v ↔ (u8Digits (stripPlus cs) ∧ decimalValue (stripPlus cs) = v) := by
  match cs with
  | [] =>
    simp [parseU8, stripPlus, u8Digits]
  | ch :: rest =>
    by_cases hplus : ch = '+'
    · subst hplus
      rw [show stripPlus ('+' :: rest) = rest by simp [stripPlus]]
      match rest with
      | [] =>
        simp [parseU8, u8Digits]
      | ch2 :: rest2 =>
        rw [show parseU8 ('+' :: ch2 :: rest2) = parseU8Loop (ch2 :: rest2) 0 by
          simp [parseU8]]
        rw [parseU8Loop_eq_some _ 0 v (by omega)]
        unfold u8Digits decimalValue
        constructor
        · rintro ⟨hall, rfl, hv⟩; exact ⟨⟨by simp, hall, hv⟩, rfl⟩
        · rintro ⟨⟨_, hall, hv⟩, rfl⟩; exact ⟨hall, rfl, hv⟩
    · rw [show stripPlus (ch :: rest) = ch :: rest by simp [stripPlus, hplus]]
      rw [show parseU8 (ch :: rest) = parseU8Loop (ch :: rest) 0 by
        simp [parseU8, hplus]]
      rw [parseU8Loop_eq_some _ 0 v (by omega)]
      unfold u8Digits decimalValue
      constructor
      · rintro ⟨hall, rfl, hv⟩; exact ⟨⟨by simp, hall, hv⟩, rfl⟩
      · rintro ⟨⟨_, hall, hv⟩, rfl⟩; exact ⟨hall, rfl, hv⟩

/-- `str::parse::<u8>` fails exactly when the plus-stripped text is not a
nonempty all-digit string with value at most 255. -/
theorem parseU8_eq_none (cs : List Char) :
    parseU8 cs = none ↔ ¬ u8Digits (stripPlus cs) := by
  constructor
  · intro h hu
    have := (parseU8_eq_some cs (decimalValue (stripPlus cs))).mpr ⟨hu, rfl⟩
    rw [h] at this
    exact Option.noConfusion this
  · intro hu
    cases hv : parseU8 cs with
    | none => rfl
    | some v =>
      exact absurd ((parseU8_eq_some cs v).mp hv).1 hu

/-! ### Characterization of leading ones and trailing zeros -/

theorem leadingOnesFrom_le (x : Nat) : ∀ k, leadingOnesFrom x k ≤ k := by
  intro k
  induction k with
  | zero => simp [leadingOnesFrom]
  | succ k ih =>
    unfold leadingOnesFrom
    by_cases h : x.testBit k
    · simp [h]; omega
    · simp [h]

theorem leadingOnes32_le (x : Nat) : leadingOnes32 x ≤ 32 :=
  leadingOnesFrom_le x 32

theorem trailingZerosUpTo_le (x : Nat) : ∀ k i, trailingZerosUpTo x i k ≤ k := by
  intro k
  induction k with
  | zero => intro i; simp [trailingZerosUpTo]
  | succ k ih =>
    intro i
    unfold trailingZerosUpTo
    by_cases h : x.testBit i <;> simp [h]
    exact ih (i + 1)

/-- Bits covered by the leading-ones count are set. -/
theorem leadingOnesFrom_bits (x : Nat) :
    ∀ k j, k - leadingOnesFrom x k ≤ j → j < k → x.testBit j = true := by
  intro k
  induction k with
  | zero => intro j _ hj; omega
  | succ k ih =>
    intro j hlo hj
    by_cases h : x.testBit k
    · rw [show leadingOnesFrom x (k + 1) = leadingOnesFrom x k + 1 by
        simp [leadingOnesFrom, h]] at hlo
      rcases Nat.lt_succ_iff_lt_or_eq.mp hj with hj2 | rfl
      · exact ih j (by omega) hj2
      · exact h
    · rw [show leadingOnesFrom x (k + 1) = 0 by simp [leadingOnesFrom, h]] at hlo
      omega

/-- If the bits from `b` up to `k` are all set and bit `b - 1` is clear (or
`b = 0`), the leading-ones count over `k` bits is exactly `k - b`. -/
theorem leadingOnesFrom_eq (x : Nat) :
    ∀ k b, b ≤ k → (∀ j, b ≤ j → j < k → x.testBit j = true) →
      (b = 0 ∨ x.testBit (b - 1) = false) → leadingOnesFrom x k = k - b := by
  intro k
  induction k with
  | zero => intro b hb _ _; interval_cases b; simp [leadingOnesFrom]
  | succ k ih =>
    intro b hb hset hlow
    by_cases hcase : b = k + 1
    · subst hcase
      have hbit : x.testBit k = false := by
        rcases hlow with h0 | h
        · omega
        · simpa using h
      simp [leadingOnesFrom, hbit]
    · have hble : b ≤ k := by omega
      have hbit : x.testBit k = true := hset k hble (Nat.lt_succ_self k)
      rw [show leadingOnesFrom x (k + 1) = leadingOnesFrom x k + 1 by
        simp [leadingOnesFrom, hbit]]
      rw [ih b hble (fun j hj hjk => hset j hj (by omega)) hlow]
      omega

/-- Bits covered by the trailing-zeros count are clear. -/
theorem trailingZerosUpTo_bits (x : Nat) :
    ∀ k i j, i ≤ j → j < i + trailingZerosUpTo x i k → x.testBit j = false := by
  intro k
  induction k with
  | zero => intro i j _ hj; simp [trailingZerosUpTo] at hj; omega
  | succ k ih =>
    intro i j hij hj
    by_cases h : x.testBit i
    · simp [trailingZerosUpTo, h] at hj; omega
    · rw [show trailingZerosUpTo x i (k + 1) = trailingZerosUpTo x (i + 1) k + 1 by
        simp [trailingZerosUpTo, h]] at hj
      rcases Nat.eq_or_lt_of_le hij with rfl | hlt
      · simpa using h
      · exact ih (i + 1) j hlt (by omega)

/-- If `m` bits starting at `i` are clear and either the budget is exhausted
or bit `i + m` is set, the trailing-zeros count from `i` is exactly `m`. -/
theorem trailingZerosUpTo_eq (x : Nat) :
    ∀ k i m, m ≤ k → (∀ j, i ≤ j → j < i + m → x.testBit j = false) →
      (m = k ∨ x.testBit (i + m) = true) → trailingZerosUpTo x i k = m := by
  intro k
  induction k with
  | zero => intro i m hm _ _; interval_cases m; simp [trailingZerosUpTo]
  | succ k ih =>
    intro i m hm hclear hstop
    match m with
    | 0 =>
      have hbit : x.testBit i = true := by
        rcases hstop with h0 | h
        · omega
        · simpa using h
      simp [trailingZerosUpTo, hbit]
    | m + 1 =>
      have hbit : x.testBit i = false := hclear i (Nat.le_refl i) (by omega)
      rw [show trailingZerosUpTo x i (k + 1) = trailingZerosUpTo x (i + 1) k + 1 by
        simp [trailingZerosUpTo, hbit]]
      rw [ih (i + 1) m (by omega)
        (fun j hj hjm => hclear j (by omega) (by omega))
        (by rcases hstop with h0 | h
            · exact Or.inl (by omega)
            · exact Or.inr (by rw [show i + 1 + m = i + (m + 1) by omega]; exact h))]

/-- Bit pattern of the spec-side prefix mask: bit `j` of `maskBits n` is set
exactly for `32 - n ≤ j < 32` (for `n ≤ 32`). -/
theorem maskBits_testBit (n : Nat) (hn : n ≤ 32) (j : Nat) :
    (maskBits n).testBit j = (decide (32 - n ≤ j) && decide (j < 32)) := by
  have hrw : maskBits n = (2 ^ n - 1) <<< (32 - n) := by
    unfold maskBits
    rw [Nat.shiftLeft_eq, Nat.sub_mul, Nat.one_mul, ← Nat.pow_add,
      show n + (32 - n) = 32 from by omega]
  rw [hrw, Nat.testBit_shiftLeft, Nat.testBit_two_pow_sub_one]
  rcases Nat.lt_or_ge j (32 - n) with h | h
  · have h1 : ¬ (32 - n ≤ j) := by omega
    have h2 : ¬ (j ≥ 32 - n) := h1
    simp [h1, h2]
  · have h1 : 32 - n ≤ j := h
    simp only [ge_iff_le, h1, decide_True, Bool.true_and]
    by_cases hj : j < 32
    · have h3 : j - (32 - n) < n := by omega
      simp [hj, h3]
    · have h3 : ¬ (j - (32 - n) < n) := by omega
      simp [hj, h3]

theorem maskBits_lt (n : Nat) : maskBits n < 2 ^ 32 := by
  unfold maskBits
  have h1 : 1 ≤ 2 ^ (32 - n) := Nat.one_le_two_pow
  have h2 : (0:Nat) < 2 ^ 32 := by positivity
  omega

/-- Soundness half: if the leading-ones and trailing-zeros counts of a 32-bit
value sum to 32, the value is the prefix mask of its leading-ones count. -/
theorem lo_tz_sound (x : Nat) (hx : x < 2 ^ 32)
    (hsum : leadingOnes32 x + trailingZeros32 x = 32) :
    x = maskBits (leadingOnes32 x) := by
  have hlo : leadingOnes32 x ≤ 32 := leadingOnes32_le x
  apply Nat.eq_of_testBit_eq
  intro j
  rw [maskBits_testBit _ hlo j]
  rcases Nat.lt_or_ge j 32 with hj32 | hj32
  · rcases Nat.lt_or_ge j (32 - leadingOnes32 x) with hjlow | hjhigh
    · have hclear : x.testBit j = false := by
        apply trailingZerosUpTo_bits x 32 0 j (by omega)
        have htz : trailingZeros32 x = trailingZerosUpTo x 0 32 := rfl
        omega
      rw [hclear]
      have h1 : ¬ (32 - leadingOnes32 x ≤ j) := by omega
      simp [h1]
    · have hset : x.testBit j = true := by
        apply leadingOnesFrom_bits x 32 j _ hj32
        have hlo2 : leadingOnes32 x = leadingOnesFrom x 32 := rfl
        omega
      rw [hset]
      have h1 : 32 - leadingOnes32 x ≤ j := hjhigh
      simp [h1, hj32]
  · rw [Nat.testBit_lt_two_pow (Nat.lt_of_lt_of_le hx (Nat.pow_le_pow_right (by omega) hj32))]
    have h1 : ¬ (j < 32) := by omega
    simp [h1]

/-- Completeness half: a prefix mask with `n` leading ones has leading-ones
count `n` and trailing-zeros count `32 - n`. -/
theorem lo_tz_complete (n : Nat) (hn : n ≤ 32) :
    leadingOnes32 (maskBits n) = n ∧ trailingZeros32 (maskBits n) = 32 - n := by
  constructor
  · unfold leadingOnes32
    rw [leadingOnesFrom_eq (maskBits n) 32 (32 - n) (by omega)
      (fun j hj hjk => by
        rw [maskBits_testBit n hn j]
        simp [hj, hjk])
      (by
        rcases Nat.eq_or_lt_of_le hn with rfl | hlt
        · exact Or.inl (by omega)
        · refine Or.inr ?_
          rw [maskBits_testBit n hn _]
          have h1 : ¬ (32 - n ≤ 32 - n - 1) := by omega
          simp [h1])]
    omega
  · unfold trailingZeros32
    apply trailingZerosUpTo_eq (maskBits n) 32 0 (32 - n) (by omega)
    · intro j hj hjm
      rw [maskBits_testBit n hn j]
      have h1 : ¬ (32 - n ≤ j) := by omega
      simp [h1]
    · rcases Nat.eq_zero_or_pos n with rfl | hpos
      · exact Or.inl (by omega)
      · refine Or.inr ?_
        rw [maskBits_testBit n hn _]
        have h1 : 32 - n ≤ 0 + (32 - n) := by omega
        have h2 : 0 + (32 - n) < 32 := by omega
        simp [h1, h2]
        omega

/-! ### Properties of the character splitter -/

theorem splitOnChar_ne_nil (sep : Char) (l : List Char) : splitOnChar sep l ≠ [] := by
  match l with
  | [] => simp [splitOnChar]
  | ch :: rest =>
    unfold splitOnChar
    by_cases h : ch = sep
    · simp [h]
    · simp only [h, if_false]
      cases hs : splitOnChar sep rest <;> simp

theorem splitOnChar_cons_self (sep : Char) (rest : List Char) :
    splitOnChar sep (sep :: rest) = [] :: splitOnChar sep rest := by
  conv_lhs => unfold splitOnChar
  simp

theorem splitOnChar_cons_ne (sep ch : Char) (rest : List Char) (h : ch ≠ sep) :
    splitOnChar sep (ch :: rest) =
      match splitOnChar sep rest with
      | [] => [[ch]]
      | p :: ps => (ch :: p) :: ps := by
  conv_lhs => unfold splitOnChar
  simp [h]

/-- The number of chunks is one more than the number of separators. -/
theorem splitOnChar_length (sep : Char) (l : List Char) :
    (splitOnChar sep l).length = l.count sep + 1 := by
  induction l with
  | nil => simp [splitOnChar]
  | cons ch rest ih =>
    by_cases h : ch = sep
    · subst h
      rw [splitOnChar_cons_self, List.count_cons_self]
      simp only [List.length_cons]
      omega
    · have hcount : (ch :: rest).count sep = rest.count sep :=
        List.count_cons_of_ne (fun hc => h hc.symm) rest
      have hne := splitOnChar_ne_nil sep rest
      cases hs : splitOnChar sep rest with
      | nil => exact absurd hs hne
      | cons p ps =>
        rw [splitOnChar_cons_ne sep ch rest h, hs, hcount]
        rw [hs] at ih
        simp only [List.length_cons] at ih ⊢
        omega

/-- A chunk without the separator splits into itself. -/
theorem splitOnChar_no_sep (sep : Char) (l : List Char) (h : sep ∉ l) :
    splitOnChar sep l = [l] := by
  induction l with
  | nil => simp [splitOnChar]
  | cons ch rest ih =>
    have hch : ch ≠ sep := fun hc => h (hc ▸ List.mem_cons_self ch rest)
    have hrest : sep ∉ rest := fun hr => h (List.mem_cons_of_mem ch hr)
    rw [splitOnChar_cons_ne sep ch rest hch, ih hrest]

/-- Splitting at the first separator occurrence: the part before it (which is
separator-free) becomes the first chunk. -/
theorem splitOnChar_append (sep : Char) (xs ys : List Char) (h : sep ∉ xs) :
    splitOnChar sep (xs ++ sep :: ys) = xs :: splitOnChar sep ys := by
  induction xs with
  | nil => simp [splitOnChar]
  | cons x xs ih =>
    have hx : x ≠ sep := fun hc => h (hc ▸ List.mem_cons_self x xs)
    have hxs : sep ∉ xs := fun hr => h (List.mem_cons_of_mem x hr)
    rw [List.cons_append, splitOnChar_cons_ne sep x _ hx, ih hxs]

/-! ### Supporting bounds -/

theorem Ipv4Addr.toU32_lt (ip : Ipv4Addr) : ip.toU32 < 2 ^ 32 := by
  have h32 : (2:Nat) ^ 32 = 4294967296 := by norm_num
  have h24 : (2:Nat) ^ 24 = 16777216 := by norm_num
  have h16 : (2:Nat) ^ 16 = 65536 := by norm_num
  have h8 : (2:Nat) ^ 8 = 256 := by norm_num
  have hx : ∀ x : Nat, x &&& 255 ≤ 255 := fun x => Nat.and_le_right
  have h1 : (ip.a &&& 255) <<< 24 < 2 ^ 32 := by
    rw [Nat.shiftLeft_eq, h24, h32]
    have := hx ip.a
    omega
  have h2 : (ip.b &&& 255) <<< 16 < 2 ^ 32 := by
    rw [Nat.shiftLeft_eq, h16, h32]
    have := hx ip.b
    omega
  have h3 : (ip.c &&& 255) <<< 8 < 2 ^ 32 := by
    rw [Nat.shiftLeft_eq, h8, h32]
    have := hx ip.c
    omega
  have h4 : ip.d &&& 255 < 2 ^ 32 := by
    rw [h32]
    have := hx ip.d
    omega
  exact Nat.or_lt_two_pow (Nat.or_lt_two_pow (Nat.or_lt_two_pow h1 h2) h3) h4

/-! ### Claim theorems -/

/-- Claim C10: `TryFrom<Ipv4Addr>` applied to 0.0.0.0 succeeds and returns
`Mask(0)`, because the 32-bit form is 0, whose 0 leading ones plus 32
trailing zeros satisfy the contiguity check. -/
theorem C10_try_from_zero_addr :
    Mask.try_from ⟨0, 0, 0, 0⟩ = Except.ok ⟨0⟩ ∧
      Ipv4Addr.toU32 ⟨0, 0, 0, 0⟩ = 0 ∧
      leadingOnes32 0 = 0 ∧ trailingZeros32 0 = 32 := by
  refine ⟨by decide, by decide, by decide, by decide⟩

/-- Claim C9: the `Default` constructors produce exactly the fixed literal
values of the source: DHCP for the client configuration, and the
192.168.71.x / 8.8.8.8 / 8.8.4.4 literals for the settings records. -/
theorem C9_defaults_exact :
    ClientConfiguration.default = ClientConfiguration.DHCP ∧
    ClientSettings.default =
      { ip := ⟨192, 168, 71, 200⟩
        subnet := { gateway := ⟨192, 168, 71, 1⟩, mask := ⟨24⟩ }
        dns := some ⟨8, 8, 8, 8⟩
        secondary_dns := some ⟨8, 8, 4, 4⟩ } ∧
    RouterConfiguration.default =
      { subnet := { gateway := ⟨192, 168, 71, 1⟩, mask := ⟨24⟩ }
        dhcp_enabled := true
        dns := some ⟨8, 8, 8, 8⟩
        secondary_dns := some ⟨8, 8, 4, 4⟩ } :=
  ⟨rfl, rfl, rfl⟩

/-- Claim C8: `as_fixed_settings_mut` is total: on a `Fixed` configuration it
returns the existing settings unchanged and leaves the state as is; on `DHCP`
it replaces the value with `Fixed(ClientSettings::default())` and returns
those default settings, leaving the configuration `Fixed`. -/
theorem C8_as_fixed_settings_mut_total (s : ClientSettings) :
    (ClientConfiguration.Fixed s).as_fixed_settings_mut = (s, ClientConfiguration.Fixed s) ∧
    ClientConfiguration.DHCP.as_fixed_settings_mut =
      (ClientSettings.default, ClientConfiguration.Fixed ClientSettings.default) :=
  ⟨rfl, rfl⟩

/-- Claim C2 (failing input): on `Mask(32)` the conversion to a dotted quad
computes `1u32 << 32`, an arithmetic overflow of the `u32` shift (a panic
under debug assertions), so no address is produced; the shift itself is the
overflowing operation. -/
theorem C2_to_dotted_quad_overflow_at_32 :
    Ipv4Addr.from_mask ⟨32⟩ = none ∧ shlU32Checked 1 32 = none :=
  ⟨rfl, rfl⟩

/-- Claim C3 (counterexample): at `Mask(32)` the conversion does not yield the
big-endian byte split of the truncated 32-bit value `1 << 32` (which would be
0.0.0.0); the shift overflows instead, so no address at all is produced. -/
theorem C3_counterexample_mask32 :
    Ipv4Addr.from_mask ⟨32⟩ ≠ some (dottedQuadOf ((1 <<< 32) % 2 ^ 32)) := by
  intro h
  exact Option.noConfusion h

/-- Claim C3 (amended): for every mask value N in [1, 31] the conversion
yields exactly the big-endian byte split of the 32-bit integer `1 << N`, and
that differs from the conventional prefix-mask dotted quad for the same N. -/
theorem C3_dotted_quad_formula (m : Mask) (h1 : 1 ≤ m.val) (h2 : m.val ≤ 31) :
    Ipv4Addr.from_mask m = some (dottedQuadOf ((1 <<< m.val) % 2 ^ 32)) ∧
    Ipv4Addr.from_mask m ≠ some (dottedQuadOf (maskBits m.val)) := by
  obtain ⟨v⟩ := m
  simp only at h1 h2
  have key : ∀ n, n < 32 → 1 ≤ n →
      (Ipv4Addr.from_mask ⟨n⟩ = some (dottedQuadOf ((1 <<< n) % 2 ^ 32)) ∧
        Ipv4Addr.from_mask ⟨n⟩ ≠ some (dottedQuadOf (maskBits n))) := by decide
  exact key v (by omega) h1

/-- Claim C3 (witness at 24). -/
theorem C3_dotted_quad_formula_witness :
    Ipv4Addr.from_mask ⟨24⟩ = some (dottedQuadOf ((1 <<< 24) % 2 ^ 32)) ∧
    Ipv4Addr.from_mask ⟨24⟩ ≠ some (dottedQuadOf (maskBits 24)) :=
  C3_dotted_quad_formula ⟨24⟩ (by decide) (by decide)

/-- Claim C1 (counterexample): not every successfully constructed mask has its
value in [1, 32]: the validated conversion from 0.0.0.0 produces `Mask(0)`. -/
theorem C1_counterexample_mask_zero_from_try_from :
    ¬ ∀ (ip : Ipv4Addr) (m : Mask), Mask.try_from ip = Except.ok m → 1 ≤ m.val := by
  intro h
  have h0 : Mask.try_from ⟨0, 0, 0, 0⟩ = Except.ok ⟨0⟩ := by decide
  have := h ⟨0, 0, 0, 0⟩ ⟨0⟩ h0
  exact absurd this (by decide)

/-- Claim C1 (amended): string parsing only constructs masks with value in
[1, 32] (and fails outside); the validated dotted-quad conversion only
constructs masks with value in [0, 32]; the defaults embed the in-range
mask 24. -/
theorem C1_construction_bounds (s : String) (ip : Ipv4Addr) (m m2 : Mask)
    (hs : Mask.from_str s = Except.ok m) (hip : Mask.try_from ip = Except.ok m2) :
    (1 ≤ m.val ∧ m.val ≤ 32) ∧ m2.val ≤ 32 ∧
      (1 ≤ ClientSettings.default.subnet.mask.val ∧
        ClientSettings.default.subnet.mask.val ≤ 32) ∧
      (1 ≤ RouterConfiguration.default.subnet.mask.val ∧
        RouterConfiguration.default.subnet.mask.val ≤ 32) := by
  refine ⟨?_, ?_, by decide, by decide⟩
  · unfold Mask.from_str Mask.parseChars at hs
    split at hs
    · exact absurd hs (by simp)
    · rename_i v
      split at hs
      · rename_i hr
        rw [Except.ok.injEq] at hs
        rw [← hs]
        exact hr
      · exact absurd hs (by simp)
  · unfold Mask.try_from at hip
    by_cases hc : leadingOnes32 ip.toU32 + trailingZeros32 ip.toU32 = 32
    · rw [if_pos hc, Except.ok.injEq] at hip
      rw [← hip]
      exact leadingOnes32_le _
    · rw [if_neg hc] at hip
      exact absurd hip (by simp)

/-- Claim C1 (witness): the amended bounds applied to the parse of "24" and
the conversion of 0.0.0.0. -/
theorem C1_construction_bounds_witness :
    (1 ≤ (Mask.mk 24).val ∧ (Mask.mk 24).val ≤ 32) ∧ (Mask.mk 0).val ≤ 32 ∧
      (1 ≤ ClientSettings.default.subnet.mask.val ∧
        ClientSettings.default.subnet.mask.val ≤ 32) ∧
      (1 ≤ RouterConfiguration.default.subnet.mask.val ∧
        RouterConfiguration.default.subnet.mask.val ≤ 32) :=
  C1_construction_bounds ("24") ⟨0, 0, 0, 0⟩ ⟨24⟩ ⟨0⟩ (by decide) (by decide)

/-- Claim C4: the validated conversion from a dotted quad succeeds exactly
when the address's 32-bit big-endian integer form is N leading one-bits
followed entirely by zero-bits (the value `2^32 - 2^(32-N)` for some
N ≤ 32), yielding `Mask(N)`; otherwise it fails with "Not a valid mask".
255.255.255.0 yields mask 24 and 255.0.255.0 fails. -/
theorem C4_try_from_contiguous (ip : Ipv4Addr) (n : Nat) :
    (Mask.try_from ip = Except.ok ⟨n⟩ ↔ (n ≤ 32 ∧ ip.toU32 = maskBits n)) ∧
    ((∀ k, k < 33 → ip.toU32 ≠ maskBits k) →
      Mask.try_from ip = Except.error ("Not a valid mask")) ∧
    Mask.try_from ⟨255, 255, 255, 0⟩ = Except.ok ⟨24⟩ ∧
    Mask.try_from ⟨255, 0, 255, 0⟩ = Except.error ("Not a valid mask") := by
  refine ⟨⟨?_, ?_⟩, ?_, by decide, by decide⟩
  · intro h
    unfold Mask.try_from at h
    by_cases hc : leadingOnes32 ip.toU32 + trailingZeros32 ip.toU32 = 32
    · rw [if_pos hc, Except.ok.injEq, Mask.mk.injEq] at h
      rw [← h]
      exact ⟨leadingOnes32_le _, lo_tz_sound ip.toU32 ip.toU32_lt hc⟩
    · rw [if_neg hc] at h
      exact absurd h (by simp)
  · rintro ⟨hn, hmask⟩
    obtain ⟨hlo, htz⟩ := lo_tz_complete n hn
    unfold Mask.try_from
    rw [hmask, hlo, htz, if_pos (by omega)]
  · intro hall
    unfold Mask.try_from
    rw [if_neg ?_]
    intro hc
    have hx := lo_tz_sound ip.toU32 ip.toU32_lt hc
    have hb := leadingOnes32_le ip.toU32
    exact hall (leadingOnes32 ip.toU32) (by omega) hx

/-- Claim C4 (witness): the failure side applied to 255.0.255.0, whose 32-bit
form matches no contiguous prefix pattern. -/
theorem C4_try_from_contiguous_witness :
    Mask.try_from ⟨255, 0, 255, 0⟩ = Except.error ("Not a valid mask") :=
  (C4_try_from_contiguous ⟨255, 0, 255, 0⟩ 0).2.1 (by decide)

theorem Mask.parseChars_none (cs : List Char) (hp : parseU8 cs = none) :
    Mask.parseChars cs = Except.error ("Invalid subnet mask") := by
  unfold Mask.parseChars
  rw [hp]

theorem Mask.parseChars_some (cs : List Char) (v0 : Nat) (hp : parseU8 cs = some v0) :
    Mask.parseChars cs =
      if 1 ≤ v0 ∧ v0 ≤ 32 then Except.ok ⟨v0⟩
      else Except.error ("Mask should be a number between 1 and 32") := by
  unfold Mask.parseChars
  rw [hp]

/-- Claim C5 (counterexample): the mask parser accepts a leading plus sign
("+24" parses to mask 24), and an integer above the u8 range ("256") fails
with the invalid-format error, not the out-of-range error. -/
theorem C5_counterexample_plus_and_overflow :
    Mask.from_str ("+24") = Except.ok ⟨24⟩ ∧
    Mask.from_str ("256") = Except.error ("Invalid subnet mask") := by
  refine ⟨by decide, by decide⟩

/-- Claim C5 (amended): mask parsing succeeds exactly on texts that, after
one optional leading plus sign, are nonempty all-digit strings whose decimal
value fits in a u8 and lies in [1, 32] (whitespace not trimmed); it fails
with "Invalid subnet mask" exactly when the text is not such a u8 numeral
(including integers above 255), and with "Mask should be a number between 1
and 32" exactly when the u8 value is outside [1, 32]. -/
theorem C5_parse_characterization (s : String) :
    (∀ v, Mask.from_str s = Except.ok ⟨v⟩ ↔
        (u8Digits (stripPlus s.data) ∧ decimalValue (stripPlus s.data) = v ∧
          1 ≤ v ∧ v ≤ 32)) ∧
    (Mask.from_str s = Except.error ("Invalid subnet mask") ↔
        ¬ u8Digits (stripPlus s.data)) ∧
    (Mask.from_str s = Except.error ("Mask should be a number between 1 and 32") ↔
        (u8Digits (stripPlus s.data) ∧
          ¬ (1 ≤ decimalValue (stripPlus s.data) ∧ decimalValue (stripPlus s.data) ≤ 32))) := by
  have hstr : ("Invalid subnet mask" : String) ≠ "Mask should be a number between 1 and 32" := by
    decide
  unfold Mask.from_str
  cases hp : parseU8 s.data with
  | none =>
    have hnot : ¬ u8Digits (stripPlus s.data) := (parseU8_eq_none s.data).mp hp
    rw [Mask.parseChars_none s.data hp]
    refine ⟨fun v => ⟨fun h => absurd h (by simp), fun h => absurd h.1 hnot⟩,
      ⟨fun _ => hnot, fun _ => rfl⟩,
      ⟨fun h => absurd h (by simp [hstr]), fun h => absurd h.1 hnot⟩⟩
  | some v0 =>
    obtain ⟨hu, hval⟩ := (parseU8_eq_some s.data v0).mp hp
    rw [Mask.parseChars_some s.data v0 hp]
    by_cases hr : 1 ≤ v0 ∧ v0 ≤ 32
    · rw [if_pos hr]
      refine ⟨fun v => ⟨?_, ?_⟩, ⟨fun h => absurd h (by simp), fun h => absurd hu h⟩,
        ⟨fun h => absurd h (by simp), fun h => absurd (hval ▸ h.2) (by simpa using hr)⟩⟩
      · intro h
        rw [Except.ok.injEq, Mask.mk.injEq] at h
        exact ⟨hu, h ▸ hval, h ▸ hr⟩
      · rintro ⟨_, hv, hrange⟩
        rw [show v = v0 from by omega]
    · rw [if_neg hr]
      refine ⟨fun v => ⟨fun h => absurd h (by simp), ?_⟩,
        ⟨fun h => absurd h (by
          simp only [Except.error.injEq]
          exact fun he => hstr he.symm), fun h => absurd hu h⟩,
        ⟨fun _ => ⟨hu, by rw [hval]; exact hr⟩, fun _ => rfl⟩⟩
      rintro ⟨_, hv, hrange⟩
      exact absurd (show 1 ≤ v0 ∧ v0 ≤ 32 from by omega) hr

/-- Claim C5 (witness): the characterization applied to the text "24". -/
theorem C5_parse_characterization_witness :
    Mask.from_str ("24") = Except.ok ⟨24⟩ :=
  ((C5_parse_characterization ("24")).1 24).mpr (by decide)

theorem Subnet.from_str_two (s : String) (g m : List Char)
    (hsplit : splitOnChar '/' s.data = [g, m]) :
    Subnet.from_str s =
      match parseIpv4Chars g with
      | some gateway => (Mask.parseChars m).map (fun mk => Subnet.mk gateway mk)
      | none => Except.error ("Invalid ip address format, expected XXX.XXX.XXX.XXX") := by
  unfold Subnet.from_str
  rw [hsplit]

/-- Claim C6: subnet parsing splits on the slash and requires exactly two
parts: with zero or two-or-more slashes it fails with the subnet-format
error; with exactly one slash, a first part that is not a well-formed
dotted quad gives the address-format error, and otherwise the second part's
mask parse result (value or error) is propagated unchanged through `map`. -/
theorem C6_subnet_parse_shape (s : String) :
    (s.data.count '/' ≠ 1 →
      Subnet.from_str s = Except.error ("Expected <gateway-ip-address>/<mask>")) ∧
    (∀ g m, s.data = g ++ '/' :: m → ('/' : Char) ∉ g → ('/' : Char) ∉ m →
      ((parseIpv4Chars g = none →
          Subnet.from_str s = Except.error ("Invalid ip address format, expected XXX.XXX.XXX.XXX")) ∧
        (∀ gw, parseIpv4Chars g = some gw →
          Subnet.from_str s = (Mask.parseChars m).map (fun mk => Subnet.mk gw mk)))) := by
  constructor
  · intro hcount
    have hlen : (splitOnChar '/' s.data).length ≠ 2 := by
      rw [splitOnChar_length]
      omega
    unfold Subnet.from_str
    cases hs : splitOnChar '/' s.data with
    | nil => rfl
    | cons p ps =>
      cases ps with
      | nil => rfl
      | cons q qs =>
        cases qs with
        | nil => exact absurd (by rw [hs]; rfl) hlen
        | cons r rs => rfl
  · intro g m heq hg hm
    have hsplit : splitOnChar '/' s.data = [g, m] := by
      rw [heq, splitOnChar_append _ _ _ hg, splitOnChar_no_sep _ _ hm]
    constructor
    · intro hnone
      rw [Subnet.from_str_two s g m hsplit, hnone]
    · intro gw hsome
      rw [Subnet.from_str_two s g m hsplit, hsome]

/-- Claim C6 (witness): a slash-free input fails with the subnet-format
error, and a well-formed input propagates the mask parse. -/
theorem C6_subnet_parse_shape_witness :
    Subnet.from_str ("192.168.1.1") = Except.error ("Expected <gateway-ip-address>/<mask>") ∧
    Subnet.from_str ("1.2.3.4/9") =
      (Mask.parseChars ['9']).map (fun mk => Subnet.mk ⟨1, 2, 3, 4⟩ mk) :=
  ⟨(C6_subnet_parse_shape ("192.168.1.1")).1 (by decide),
    ((C6_subnet_parse_shape ("1.2.3.4/9")).2
      ['1', '.', '2', '.', '3', '.', '4'] ['9'] (by decide) (by decide) (by decide)).2
      ⟨1, 2, 3, 4⟩ (by decide)⟩

/-! ### Rendering round-trips -/

set_option maxRecDepth 10000 in
theorem octet_repr_roundtrip : ∀ v, v < 256 → parseOctet (Nat.repr v).data = some v := by
  decide

set_option maxRecDepth 10000 in
theorem repr_all_digits : ∀ v, v < 256 → ((Nat.repr v).data.all Char.isDigit) = true := by
  decide

set_option maxRecDepth 10000 in
theorem mask_repr_roundtrip :
    ∀ v, v < 33 → 1 ≤ v → Mask.parseChars (Nat.repr v).data = Except.ok ⟨v⟩ := by
  decide

theorem not_mem_of_all_digits (cs : List Char) (h : cs.all Char.isDigit = true)
    (c : Char) (hc : c.isDigit = false) : c ∉ cs := by
  intro hmem
  have := List.all_eq_true.mp h c hmem
  rw [hc] at this
  exact Bool.noConfusion this

theorem no_dot_in_repr (v : Nat) (h : v < 256) : ('.' : Char) ∉ (Nat.repr v).data :=
  not_mem_of_all_digits _ (repr_all_digits v h) '.' (by decide)

theorem no_slash_in_repr (v : Nat) (h : v < 256) : ('/' : Char) ∉ (Nat.repr v).data :=
  not_mem_of_all_digits _ (repr_all_digits v h) '/' (by decide)

theorem ipv4_to_string_data (a0 b0 c0 d0 : Nat) :
    (Ipv4Addr.to_string ⟨a0, b0, c0, d0⟩).data =
      (Nat.repr a0).data ++ '.' ::
        ((Nat.repr b0).data ++ '.' :: ((Nat.repr c0).data ++ '.' :: (Nat.repr d0).data)) := by
  unfold Ipv4Addr.to_string
  simp [String.data_append, List.append_assoc]

theorem parseIpv4Chars_four (cs oA oB oC oD : List Char)
    (hsplit : splitOnChar '.' cs = [oA, oB, oC, oD]) :
    parseIpv4Chars cs =
      match parseOctet oA, parseOctet oB, parseOctet oC, parseOctet oD with
      | some x0, some x1, some x2, some x3 => some ⟨x0, x1, x2, x3⟩
      | _, _, _, _ => none := by
  unfold parseIpv4Chars
  rw [hsplit]

/-- Rendering a valid address and parsing it back is the identity. -/
theorem parse_to_string_ipv4 (ip : Ipv4Addr) (h : ip.valid) :
    parseIpv4Chars (Ipv4Addr.to_string ip).data = some ip := by
  obtain ⟨a0, b0, c0, d0⟩ := ip
  obtain ⟨ha, hb, hc, hd⟩ := h
  have hsplit : splitOnChar '.' (Ipv4Addr.to_string ⟨a0, b0, c0, d0⟩).data =
      [(Nat.repr a0).data, (Nat.repr b0).data, (Nat.repr c0).data, (Nat.repr d0).data] := by
    rw [ipv4_to_string_data, splitOnChar_append _ _ _ (no_dot_in_repr a0 ha),
      splitOnChar_append _ _ _ (no_dot_in_repr b0 hb),
      splitOnChar_append _ _ _ (no_dot_in_repr c0 hc),
      splitOnChar_no_sep _ _ (no_dot_in_repr d0 hd)]
  rw [parseIpv4Chars_four _ _ _ _ _ hsplit, octet_repr_roundtrip a0 ha,
    octet_repr_roundtrip b0 hb, octet_repr_roundtrip c0 hc, octet_repr_roundtrip d0 hd]

theorem no_slash_in_ipv4_to_string (ip : Ipv4Addr) (h : ip.valid) :
    ('/' : Char) ∉ (Ipv4Addr.to_string ip).data := by
  obtain ⟨a0, b0, c0, d0⟩ := ip
  obtain ⟨ha, hb, hc, hd⟩ := h
  rw [ipv4_to_string_data]
  intro hmem
  simp only [List.mem_append, List.mem_cons] at hmem
  rcases hmem with h1 | h2 | h1 | h2 | h1 | h2 | h1
  · exact no_slash_in_repr a0 ha h1
  · exact absurd h2 (by decide)
  · exact no_slash_in_repr b0 hb h1
  · exact absurd h2 (by decide)
  · exact no_slash_in_repr c0 hc h1
  · exact absurd h2 (by decide)
  · exact no_slash_in_repr d0 hd h1

/-- Claim C7: render-then-parse is the identity on valid values: for every
mask value in [1, 32], parsing the rendered decimal text yields the same
mask; for every subnet with u8-valid gateway octets and a mask in [1, 32],
parsing the rendered "gateway/mask" text yields an equal subnet. -/
theorem C7_render_parse_identity :
    (∀ v, 1 ≤ v → v ≤ 32 → Mask.from_str (Mask.to_string ⟨v⟩) = Except.ok ⟨v⟩) ∧
    (∀ sn : Subnet, sn.gateway.valid → 1 ≤ sn.mask.val → sn.mask.val ≤ 32 →
      Subnet.from_str (Subnet.to_string sn) = Except.ok sn) := by
  constructor
  · intro v h1 h2
    unfold Mask.from_str Mask.to_string
    exact mask_repr_roundtrip v (by omega) h1
  · rintro ⟨gw, ⟨mv⟩⟩ hval h1 h2
    simp only at hval h1 h2
    have hmaskdata : ('/' : Char) ∉ (Nat.repr mv).data :=
      no_slash_in_repr mv (by omega)
    have hdata : (Subnet.to_string ⟨gw, ⟨mv⟩⟩).data =
        (Ipv4Addr.to_string gw).data ++ '/' :: (Nat.repr mv).data := by
      unfold Subnet.to_string
      simp [String.data_append, List.append_assoc]
    have hsplit : splitOnChar '/' (Subnet.to_string ⟨gw, ⟨mv⟩⟩).data =
        [(Ipv4Addr.to_string gw).data, (Nat.repr mv).data] := by
      rw [hdata, splitOnChar_append _ _ _ (no_slash_in_ipv4_to_string gw hval),
        splitOnChar_no_sep _ _ hmaskdata]
    rw [Subnet.from_str_two _ _ _ hsplit, parse_to_string_ipv4 gw hval,
      mask_repr_roundtrip mv (by omega) h1]
    rfl

/-- Claim C7 (witness): the identity applied to mask 24 and to the subnet
192.168.1.1/24. -/
theorem C7_render_parse_identity_witness :
    Mask.from_str (Mask.to_string ⟨24⟩) = Except.ok ⟨24⟩ ∧
    Subnet.from_str (Subnet.to_string ⟨⟨192, 168, 1, 1⟩, ⟨24⟩⟩) =
      Except.ok ⟨⟨192, 168, 1, 1⟩, ⟨24⟩⟩ :=
  ⟨C7_render_parse_identity.1 24 (by decide) (by decide),
    C7_render_parse_identity.2 ⟨⟨192, 168, 1, 1⟩, ⟨24⟩⟩ (by decide) (by decide) (by decide)⟩

/-- Claim C8 (witness): the accessor applied to a concrete settings value and
to the DHCP state. -/
theorem C8_as_fixed_settings_mut_total_witness :
    (ClientConfiguration.Fixed ClientSettings.default).as_fixed_settings_mut =
      (ClientSettings.default, ClientConfiguration.Fixed ClientSettings.default) ∧
    ClientConfiguration.DHCP.as_fixed_settings_mut =
      (ClientSettings.default, ClientConfiguration.Fixed ClientSettings.default) :=
  C8_as_fixed_settings_mut_total ClientSettings.default
